import Mathlib

/-!
# Verification of the leftist-heap `priority_queue` (src/src/priority_queue.hpp)

This file is a shallow embedding of `sjtu::priority_queue<T, Compare>`, a
mergeable max-priority queue implemented as a leftist heap, together with
proofs about the properties its specification states.

Modelling conventions:
* A C++ `Node*` subtree is `Tree α`: `leaf` is the null pointer, `node data
  left right dist` is a `Node` with its four fields (`dist` is the C++ `int`
  field, modelled as `Int` since `getDist` returns `-1` on null).
* The container is `PQ α`: its `root` and `queue_size` fields.
* A comparator that may throw is `α → α → Except Unit Bool`; `.error ()`
  models a thrown exception.  A non-failing comparator is `α → α → Bool`.
* `mergeNodes` in the source is commit-at-end at every recursion frame: all
  mutations of a node (right-child assignment, swap, dist update) happen
  after the recursive call has returned, so an exception unwinds without any
  node having been mutated.  The purely functional embedding therefore
  represents a failed call by an `Except.error` carrying no tree change, and
  the container operations' catch blocks are modelled by building the
  restored state exactly as the source's recovery code does.
* Undefined behaviour (dereferencing a null `root` when `queue_size ≠ 0`,
  impossible under the size-consistency invariant) is modelled as `none` in
  an `Option`-valued result.
-/

namespace LeftistPQ

/-- A leftist-heap subtree: `leaf` is the null `Node*`; `node d l r dist`
carries the `data`, `left`, `right` and `dist` fields of a `Node`. -/
inductive Tree (α : Type) : Type
  | leaf : Tree α
  | node (data : α) (left right : Tree α) (dist : Int) : Tree α
  deriving DecidableEq, Repr

namespace Tree

/-- Number of nodes in a subtree (used as a termination measure). -/
def size : Tree α → Nat
  | .leaf => 0
  | .node _ l r _ => l.size + r.size + 1

/-- `getDist` from the source: the `dist` field of a node, `-1` for null. -/
def getDist : Tree α → Int
  | .leaf => -1
  | .node _ _ _ d => d

end Tree

open Tree

/-- `mergeNodes(a, b)` with a non-failing comparator `cmp` (the source's
`cmp(x, y)` call).  Mirrors the source exactly: null checks first; then the
single comparator call; if the result is false, `a` stays root and `b` is
merged into `a`'s right subtree, else symmetrically for `b`; then the leftist
swap and the `dist` update. -/
def mergeNodes (cmp : α → α → Bool) : Tree α → Tree α → Tree α
  | .leaf, b => b
  | .node ad al ar adx, .leaf => .node ad al ar adx
  | .node ad al ar adx, .node bd bl br bdx =>
    if !(cmp ad bd) then
      let nr := mergeNodes cmp ar (.node bd bl br bdx)
      if getDist al < getDist nr then
        .node ad nr al (getDist al + 1)
      else
        .node ad al nr (getDist nr + 1)
    else
      let nr := mergeNodes cmp (.node ad al ar adx) br
      if getDist bl < getDist nr then
        .node bd nr bl (getDist bl + 1)
      else
        .node bd bl nr (getDist nr + 1)
  termination_by a b => a.size + b.size
  decreasing_by all_goals simp [Tree.size]; omega

theorem size_mergeNodes (cmp : α → α → Bool) (a b : Tree α) :
    (mergeNodes cmp a b).size = a.size + b.size := by
  induction a, b using mergeNodes.induct cmp with
  | case1 b => rw [mergeNodes]; simp [Tree.size]
  | case2 ad al ar adx => rw [mergeNodes]; simp [Tree.size]
  | case3 ad al ar adx bd bl br bdx hc nr hlt ih =>
    rw [mergeNodes]; simp only [hc, if_true]
    split <;> simp_all [Tree.size] <;> omega
  | case4 ad al ar adx bd bl br bdx hc nr hlt ih =>
    rw [mergeNodes]; simp only [hc, if_true]
    split <;> simp_all [Tree.size] <;> omega
  | case5 ad al ar adx bd bl br bdx hc nr hlt ih =>
    rw [mergeNodes]; simp only [hc, if_false, Bool.not_eq_true]
    split <;> simp_all [Tree.size] <;> omega
  | case6 ad al ar adx bd bl br bdx hc nr hlt ih =>
    rw [mergeNodes]; simp only [hc, if_false, Bool.not_eq_true]
    split <;> simp_all [Tree.size] <;> omega

/-- The leftist and distance-consistency invariants of the spec, as one
executable predicate: at every node, `dist(left) ≥ dist(right)` (with `-1`
for an empty child, via `getDist`) and `dist = dist(right) + 1`. -/
def leftistInv : Tree α → Bool
  | .leaf => true
  | .node _ l r d =>
    leftistInv l && leftistInv r &&
      decide (getDist r ≤ getDist l) && decide (d = getDist r + 1)

theorem leftistInv_node_iff (d : α) (l r : Tree α) (dx : Int) :
    leftistInv (.node d l r dx) = true ↔
      leftistInv l = true ∧ leftistInv r = true ∧
        getDist r ≤ getDist l ∧ dx = getDist r + 1 := by
  simp [leftistInv]; tauto

theorem getDist_ge_neg_one {t : Tree α} (h : leftistInv t = true) :
    -1 ≤ getDist t := by
  induction t with
  | leaf => simp [getDist]
  | node d l r dx ihl ihr =>
    rw [leftistInv_node_iff] at h
    obtain ⟨hl, hr, hle, hd⟩ := h
    have := ihr hr
    simp only [getDist]
    omega

/-- In a tree satisfying the invariant, `dist = -1` characterises the empty
subtree (a node's `dist` is `dist(right) + 1 ≥ 0`). -/
theorem getDist_eq_neg_one_iff {t : Tree α} (h : leftistInv t = true) :
    (getDist t = -1 ↔ t = .leaf) := by
  cases t with
  | leaf => simp [getDist]
  | node d l r dx =>
    rw [leftistInv_node_iff] at h
    obtain ⟨hl, hr, hle, hd⟩ := h
    have := getDist_ge_neg_one hr
    simp only [getDist]
    constructor
    · intro hx; omega
    · intro hx; cases hx

theorem leftistInv_mergeNodes (cmp : α → α → Bool) (a b : Tree α) :
    leftistInv a = true → leftistInv b = true →
      leftistInv (mergeNodes cmp a b) = true := by
  induction a, b using mergeNodes.induct cmp with
  | case1 b => intro _ hb; rwa [mergeNodes]
  | case2 ad al ar adx => intro ha _; rwa [mergeNodes]
  | case3 ad al ar adx bd bl br bdx hc nr hlt ih =>
    intro ha hb
    rw [leftistInv_node_iff] at ha
    obtain ⟨hal, har, hale, had⟩ := ha
    have hnr := ih har hb
    rw [mergeNodes]; rw [if_pos hc]
    dsimp only
    split
    next h =>
      rw [leftistInv_node_iff]
      exact ⟨hnr, hal, le_of_lt h, rfl⟩
    next h => exact absurd hlt h
  | case4 ad al ar adx bd bl br bdx hc nr hlt ih =>
    intro ha hb
    rw [leftistInv_node_iff] at ha
    obtain ⟨hal, har, hale, had⟩ := ha
    have hnr := ih har hb
    rw [mergeNodes]; rw [if_pos hc]
    dsimp only
    split
    next h =>
      rw [leftistInv_node_iff]
      exact ⟨hnr, hal, le_of_lt h, rfl⟩
    next h =>
      rw [leftistInv_node_iff]
      exact ⟨hal, hnr, not_lt.mp h, rfl⟩
  | case5 ad al ar adx bd bl br bdx hc nr hlt ih =>
    intro ha hb
    rw [leftistInv_node_iff] at hb
    obtain ⟨hbl, hbr, hble, hbd⟩ := hb
    have hnr := ih ha hbr
    rw [mergeNodes]; rw [if_neg hc]
    dsimp only
    split
    next h =>
      rw [leftistInv_node_iff]
      exact ⟨hnr, hbl, le_of_lt h, rfl⟩
    next h => exact absurd hlt h
  | case6 ad al ar adx bd bl br bdx hc nr hlt ih =>
    intro ha hb
    rw [leftistInv_node_iff] at hb
    obtain ⟨hbl, hbr, hble, hbd⟩ := hb
    have hnr := ih ha hbr
    rw [mergeNodes]; rw [if_neg hc]
    dsimp only
    split
    next h =>
      rw [leftistInv_node_iff]
      exact ⟨hnr, hbl, le_of_lt h, rfl⟩
    next h =>
      rw [leftistInv_node_iff]
      exact ⟨hbl, hnr, not_lt.mp h, rfl⟩

/-- The comparator of the claims' integer instantiation: the default
`std::less<int>`, `lt(a, b) = a < b`. -/
def intLt (a b : ℤ) : Bool := a < b

/-- All elements in a subtree are `≤ c`. -/
def bounded (c : ℤ) : Tree ℤ → Bool
  | .leaf => true
  | .node d l r _ => decide (d ≤ c) && bounded c l && bounded c r

/-- Max-heap order: each node's subtrees hold only elements `≤` its own. -/
def heapOrd : Tree ℤ → Bool
  | .leaf => true
  | .node d l r _ => bounded d l && bounded d r && heapOrd l && heapOrd r

theorem bounded_node_iff (c d : ℤ) (l r : Tree ℤ) (dx : Int) :
    bounded c (.node d l r dx) = true ↔
      d ≤ c ∧ bounded c l = true ∧ bounded c r = true := by
  simp [bounded]; tauto

theorem heapOrd_node_iff (d : ℤ) (l r : Tree ℤ) (dx : Int) :
    heapOrd (.node d l r dx) = true ↔
      bounded d l = true ∧ bounded d r = true ∧
        heapOrd l = true ∧ heapOrd r = true := by
  simp [heapOrd]; tauto

theorem bounded_mono {c c' : ℤ} {t : Tree ℤ} (hcc : c ≤ c')
    (h : bounded c t = true) : bounded c' t = true := by
  induction t with
  | leaf => rfl
  | node d l r dx ihl ihr =>
    rw [bounded_node_iff] at h ⊢
    exact ⟨le_trans h.1 hcc, ihl h.2.1, ihr h.2.2⟩

theorem bounded_mergeNodes (cmp : ℤ → ℤ → Bool) (c : ℤ) (a b : Tree ℤ) :
    bounded c a = true → bounded c b = true →
      bounded c (mergeNodes cmp a b) = true := by
  induction a, b using mergeNodes.induct cmp with
  | case1 b => intro _ hb; rwa [mergeNodes]
  | case2 ad al ar adx => intro ha _; rwa [mergeNodes]
  | case3 ad al ar adx bd bl br bdx hc nr hlt ih =>
    intro ha hb
    rw [bounded_node_iff] at ha
    obtain ⟨hdc, hal, har⟩ := ha
    have hnr := ih har hb
    rw [mergeNodes, if_pos hc]
    dsimp only
    split
    next h => exact (bounded_node_iff _ _ _ _ _).mpr ⟨hdc, hnr, hal⟩
    next h => exact absurd hlt h
  | case4 ad al ar adx bd bl br bdx hc nr hlt ih =>
    intro ha hb
    rw [bounded_node_iff] at ha
    obtain ⟨hdc, hal, har⟩ := ha
    have hnr := ih har hb
    rw [mergeNodes, if_pos hc]
    dsimp only
    split
    next h => exact absurd h hlt
    next h => exact (bounded_node_iff _ _ _ _ _).mpr ⟨hdc, hal, hnr⟩
  | case5 ad al ar adx bd bl br bdx hc nr hlt ih =>
    intro ha hb
    rw [bounded_node_iff] at hb
    obtain ⟨hdc, hbl, hbr⟩ := hb
    have hnr := ih ha hbr
    rw [mergeNodes, if_neg hc]
    dsimp only
    split
    next h => exact (bounded_node_iff _ _ _ _ _).mpr ⟨hdc, hnr, hbl⟩
    next h => exact absurd hlt h
  | case6 ad al ar adx bd bl br bdx hc nr hlt ih =>
    intro ha hb
    rw [bounded_node_iff] at hb
    obtain ⟨hdc, hbl, hbr⟩ := hb
    have hnr := ih ha hbr
    rw [mergeNodes, if_neg hc]
    dsimp only
    split
    next h => exact absurd h hlt
    next h => exact (bounded_node_iff _ _ _ _ _).mpr ⟨hdc, hbl, hnr⟩

theorem heapOrd_mergeNodes (a b : Tree ℤ) :
    heapOrd a = true → heapOrd b = true →
      heapOrd (mergeNodes intLt a b) = true := by
  induction a, b using mergeNodes.induct intLt with
  | case1 b => intro _ hb; rwa [mergeNodes]
  | case2 ad al ar adx => intro ha _; rwa [mergeNodes]
  | case3 ad al ar adx bd bl br bdx hc nr hlt ih =>
    intro ha hb
    have hba : bd ≤ ad := by simp [intLt] at hc; omega
    rw [heapOrd_node_iff] at ha
    obtain ⟨hbal, hbar, hoal, hoar⟩ := ha
    have hbb : bounded ad (.node bd bl br bdx) = true := by
      rw [heapOrd_node_iff] at hb
      exact (bounded_node_iff _ _ _ _ _).mpr
        ⟨hba, bounded_mono hba hb.1, bounded_mono hba hb.2.1⟩
    have hnro := ih hoar hb
    have hnrb := bounded_mergeNodes intLt ad ar _ hbar hbb
    rw [mergeNodes, if_pos hc]
    dsimp only
    split
    next h => exact (heapOrd_node_iff _ _ _ _).mpr ⟨hnrb, hbal, hnro, hoal⟩
    next h => exact absurd hlt h
  | case4 ad al ar adx bd bl br bdx hc nr hlt ih =>
    intro ha hb
    have hba : bd ≤ ad := by simp [intLt] at hc; omega
    rw [heapOrd_node_iff] at ha
    obtain ⟨hbal, hbar, hoal, hoar⟩ := ha
    have hbb : bounded ad (.node bd bl br bdx) = true := by
      rw [heapOrd_node_iff] at hb
      exact (bounded_node_iff _ _ _ _ _).mpr
        ⟨hba, bounded_mono hba hb.1, bounded_mono hba hb.2.1⟩
    have hnro := ih hoar hb
    have hnrb := bounded_mergeNodes intLt ad ar _ hbar hbb
    rw [mergeNodes, if_pos hc]
    dsimp only
    split
    next h => exact absurd h hlt
    next h => exact (heapOrd_node_iff _ _ _ _).mpr ⟨hbal, hnrb, hoal, hnro⟩
  | case5 ad al ar adx bd bl br bdx hc nr hlt ih =>
    intro ha hb
    have hab : ad ≤ bd := by simp [intLt] at hc; omega
    rw [heapOrd_node_iff] at hb
    obtain ⟨hbbl, hbbr, hobl, hobr⟩ := hb
    have hba : bounded bd (.node ad al ar adx) = true := by
      rw [heapOrd_node_iff] at ha
      exact (bounded_node_iff _ _ _ _ _).mpr
        ⟨hab, bounded_mono hab ha.1, bounded_mono hab ha.2.1⟩
    have hnro := ih ha hobr
    have hnrb := bounded_mergeNodes intLt bd _ br hba hbbr
    rw [mergeNodes, if_neg hc]
    dsimp only
    split
    next h => exact (heapOrd_node_iff _ _ _ _).mpr ⟨hnrb, hbbl, hnro, hobl⟩
    next h => exact absurd hlt h
  | case6 ad al ar adx bd bl br bdx hc nr hlt ih =>
    intro ha hb
    have hab : ad ≤ bd := by simp [intLt] at hc; omega
    rw [heapOrd_node_iff] at hb
    obtain ⟨hbbl, hbbr, hobl, hobr⟩ := hb
    have hba : bounded bd (.node ad al ar adx) = true := by
      rw [heapOrd_node_iff] at ha
      exact (bounded_node_iff _ _ _ _ _).mpr
        ⟨hab, bounded_mono hab ha.1, bounded_mono hab ha.2.1⟩
    have hnro := ih ha hobr
    have hnrb := bounded_mergeNodes intLt bd _ br hba hbbr
    rw [mergeNodes, if_neg hc]
    dsimp only
    split
    next h => exact absurd h hlt
    next h => exact (heapOrd_node_iff _ _ _ _).mpr ⟨hbbl, hnrb, hobl, hnro⟩

/-- The container state: the `root` and `queue_size` fields of
`priority_queue`. -/
structure PQ (α : Type) : Type where
  root : Tree α
  queue_size : Nat
  deriving DecidableEq, Repr

namespace PQ

/-- `size()`: returns `queue_size`. -/
def size (pq : PQ α) : Nat := pq.queue_size

/-- `empty()`: `queue_size == 0`. -/
def empty (pq : PQ α) : Bool := pq.queue_size == 0

/-- `push(e)` with a non-failing comparator: allocate the singleton node
(`dist` 0, no children), merge it with `root`, increment `queue_size`. -/
def push (cmp : α → α → Bool) (pq : PQ α) (e : α) : PQ α :=
  ⟨mergeNodes cmp pq.root (.node e .leaf .leaf 0), pq.queue_size + 1⟩

/-- `top()`: `none` models the container-empty raise (when `empty()`) or the
null-root dereference (unreachable under size consistency); otherwise the
value of `root->data`. -/
def top? (pq : PQ α) : Option α :=
  if pq.queue_size == 0 then none
  else
    match pq.root with
    | .leaf => none
    | .node d _ _ _ => some d

/-- `pop()` with a non-failing comparator: `none` models the container-empty
raise or the null-root dereference; otherwise the root's children are merged
into the new root, `queue_size` is decremented, the old root is freed. -/
def pop? (cmp : α → α → Bool) (pq : PQ α) : Option (PQ α) :=
  if pq.queue_size == 0 then none
  else
    match pq.root with
    | .leaf => none
    | .node _ l r _ => some ⟨mergeNodes cmp l r, pq.queue_size - 1⟩

/-- Read `top()` and then `pop()` up to `n` times: the list of successive
top values, and the final container state. -/
def topPopSeq (cmp : α → α → Bool) : Nat → PQ α → List α × PQ α
  | 0, pq => ([], pq)
  | n + 1, pq =>
    match top? pq, pop? cmp pq with
    | some t, some pq' =>
      let (l, f) := topPopSeq cmp n pq'
      (t :: l, f)
    | _, _ => ([], pq)

end PQ

/-- Container states reachable from the default-constructed (empty) container
through successful `push`/`pop` calls with comparator `cmp`. -/
inductive Reach (cmp : α → α → Bool) : PQ α → Prop
  | init : Reach cmp ⟨.leaf, 0⟩
  | push (pq : PQ α) (e : α) : Reach cmp pq → Reach cmp (PQ.push cmp pq e)
  | pop (pq pq' : PQ α) : Reach cmp pq → PQ.pop? cmp pq = some pq' →
      Reach cmp pq'

theorem top?_eq_some {pq : PQ α} {x : α} (h : PQ.top? pq = some x) :
    ∃ l r dx, pq.root = .node x l r dx ∧ pq.queue_size ≠ 0 := by
  unfold PQ.top? at h
  split at h
  · cases h
  · split at h
    · cases h
    · next d l r dx heq =>
      cases h
      exact ⟨l, r, dx, heq, by simp_all⟩

theorem pop?_eq_some {cmp : α → α → Bool} {pq pq' : PQ α}
    (h : PQ.pop? cmp pq = some pq') :
    ∃ d l r dx, pq.root = .node d l r dx ∧ pq.queue_size ≠ 0 ∧
      pq' = ⟨mergeNodes cmp l r, pq.queue_size - 1⟩ := by
  unfold PQ.pop? at h
  split at h
  · cases h
  · split at h
    · cases h
    · next d l r dx heq =>
      cases h
      exact ⟨d, l, r, dx, heq, by simp_all, rfl⟩

/-- Every container reachable via `push`/`pop` with the integer comparator is
max-heap ordered. -/
theorem heapOrd_reach {pq : PQ ℤ} (h : Reach intLt pq) :
    heapOrd pq.root = true := by
  induction h with
  | init => rfl
  | push pq e _ ih =>
    exact heapOrd_mergeNodes _ _ ih rfl
  | pop pq pq' _ hp ih =>
    obtain ⟨d, l, r, dx, heq, _, hpq'⟩ := pop?_eq_some hp
    rw [heq, heapOrd_node_iff] at ih
    rw [hpq']
    exact heapOrd_mergeNodes _ _ ih.2.2.1 ih.2.2.2

theorem head?_topPopSeq {cmp : α → α → Bool} {n : Nat} {pq : PQ α} {x : α}
    (h : ((PQ.topPopSeq cmp n pq).1).head? = some x) : PQ.top? pq = some x := by
  cases n with
  | zero => simp [PQ.topPopSeq] at h
  | succ n =>
    rw [PQ.topPopSeq] at h
    split at h
    · next t pq' ht hp =>
      simp at h
      rwa [h] at ht
    · simp at h

/-- A max-heap ordered container yields a non-increasing sequence of
successive top values. -/
theorem chain_topPopSeq (n : Nat) (pq : PQ ℤ) (h : heapOrd pq.root = true) :
    List.Chain' (fun x y => y ≤ x) (PQ.topPopSeq intLt n pq).1 := by
  induction n generalizing pq with
  | zero => simp [PQ.topPopSeq]
  | succ n ih =>
    rw [PQ.topPopSeq]
    split
    · next t pq' ht hp =>
      obtain ⟨l, r, dx, heqt, _⟩ := top?_eq_some ht
      obtain ⟨d, l', r', dx', heqp, _, hpq'⟩ := pop?_eq_some hp
      rw [heqt] at heqp
      cases heqp
      rw [heqt, heapOrd_node_iff] at h
      have hord : heapOrd pq'.root = true := by
        rw [hpq']
        exact heapOrd_mergeNodes _ _ h.2.2.1 h.2.2.2
      have hbnd : bounded t pq'.root = true := by
        rw [hpq']
        exact bounded_mergeNodes intLt t _ _ h.1 h.2.1
      refine List.chain'_cons'.mpr ⟨?_, ih pq' hord⟩
      intro y hy
      obtain ⟨ly, ry, dy, heqy, _⟩ := top?_eq_some (head?_topPopSeq hy)
      rw [heqy, bounded_node_iff] at hbnd
      exact hbnd.1
    · simp

/-- C1: with a non-failing integer comparator, after any sequence of
`push`/`pop` on the container the values returned by successively reading
`top` and popping form a non-increasing sequence; in particular pushing
5, 3, 8, 1, 9, 2 and then reading `top`/`pop` six times yields
9, 8, 5, 3, 2, 1 and leaves a container on which `empty()` returns true. -/
theorem C1_top_sequence_nonincreasing :
    (∀ (pq : PQ ℤ) (n : Nat), Reach intLt pq →
        List.Chain' (fun x y => y ≤ x) (PQ.topPopSeq intLt n pq).1) ∧
      PQ.topPopSeq intLt 6
          (([5, 3, 8, 1, 9, 2] : List ℤ).foldl (PQ.push intLt) ⟨.leaf, 0⟩) =
        ([9, 8, 5, 3, 2, 1], ⟨.leaf, 0⟩) ∧
      PQ.empty (PQ.topPopSeq intLt 6
          (([5, 3, 8, 1, 9, 2] : List ℤ).foldl (PQ.push intLt) ⟨.leaf, 0⟩)).2 =
        true := by
  refine ⟨fun pq n h => chain_topPopSeq n pq (heapOrd_reach h), ?_, ?_⟩ <;>
    simp [PQ.topPopSeq, PQ.top?, PQ.pop?, PQ.push, PQ.empty, mergeNodes, intLt,
      getDist, List.foldl]

/-- Witness for C1: the universal part applied to the concrete container
reached by pushing 5 into the empty container, drained for two steps. -/
theorem C1_top_sequence_nonincreasing_witness :
    List.Chain' (fun x y : ℤ => y ≤ x)
      (PQ.topPopSeq intLt 2 (PQ.push intLt ⟨.leaf, 0⟩ 5)).1 :=
  C1_top_sequence_nonincreasing.1 _ 2 (Reach.push _ 5 Reach.init)

/-- `mergeNodes` instrumented with the sequence of comparator invocations,
in call order.  Structurally identical to `mergeNodes`: a frame with two
non-null inputs consults the comparator exactly once, on
`(a->data, b->data)`, before the recursive merge. -/
def mergeNodesT (cmp : α → α → Bool) :
    Tree α → Tree α → Tree α × List (α × α)
  | .leaf, b => (b, [])
  | .node ad al ar adx, .leaf => (.node ad al ar adx, [])
  | .node ad al ar adx, .node bd bl br bdx =>
    if !(cmp ad bd) then
      let p := mergeNodesT cmp ar (.node bd bl br bdx)
      (if getDist al < getDist p.1 then .node ad p.1 al (getDist al + 1)
       else .node ad al p.1 (getDist p.1 + 1), (ad, bd) :: p.2)
    else
      let p := mergeNodesT cmp (.node ad al ar adx) br
      (if getDist bl < getDist p.1 then .node bd p.1 bl (getDist bl + 1)
       else .node bd bl p.1 (getDist p.1 + 1), (ad, bd) :: p.2)
  termination_by a b => a.size + b.size
  decreasing_by all_goals simp [Tree.size]; omega

/-- C8: on two non-empty subtrees the comparator is consulted exactly once
per recursion frame, as `cmp(a->data, b->data)` followed by the calls of the
recursive merge; if the result is false, `a` becomes the root of the merged
tree (so equal keys make the first operand win) and `b` is merged into `a`'s
right subtree, and symmetrically when the result is true. -/
theorem C8_comparator_once_first_wins (cmp : α → α → Bool) (ad bd : α)
    (al ar bl br : Tree α) (adx bdx : Int) :
    ((mergeNodesT cmp (.node ad al ar adx) (.node bd bl br bdx)).2 =
        (ad, bd) ::
          (if cmp ad bd then (mergeNodesT cmp (.node ad al ar adx) br).2
           else (mergeNodesT cmp ar (.node bd bl br bdx)).2)) ∧
      (cmp ad bd = false →
        ∃ dx',
          (mergeNodesT cmp (.node ad al ar adx) (.node bd bl br bdx)).1 =
              .node ad al (mergeNodesT cmp ar (.node bd bl br bdx)).1 dx' ∨
            (mergeNodesT cmp (.node ad al ar adx) (.node bd bl br bdx)).1 =
              .node ad (mergeNodesT cmp ar (.node bd bl br bdx)).1 al dx') ∧
      (cmp ad bd = true →
        ∃ dx',
          (mergeNodesT cmp (.node ad al ar adx) (.node bd bl br bdx)).1 =
              .node bd bl (mergeNodesT cmp (.node ad al ar adx) br).1 dx' ∨
            (mergeNodesT cmp (.node ad al ar adx) (.node bd bl br bdx)).1 =
              .node bd (mergeNodesT cmp (.node ad al ar adx) br).1 bl dx') := by
  cases hcb : cmp ad bd with
  | false =>
    refine ⟨?_, fun _ => ?_, fun h => Bool.noConfusion h⟩
    · rw [mergeNodesT]; simp [hcb]
    · by_cases hs :
        getDist al < getDist (mergeNodesT cmp ar (.node bd bl br bdx)).1
      · exact ⟨getDist al + 1, Or.inr (by rw [mergeNodesT]; simp [hcb, hs])⟩
      · exact ⟨getDist (mergeNodesT cmp ar (.node bd bl br bdx)).1 + 1,
          Or.inl (by rw [mergeNodesT]; simp [hcb, hs])⟩
  | true =>
    refine ⟨?_, fun h => Bool.noConfusion h, fun _ => ?_⟩
    · rw [mergeNodesT]; simp [hcb]
    · by_cases hs :
        getDist bl < getDist (mergeNodesT cmp (.node ad al ar adx) br).1
      · exact ⟨getDist bl + 1, Or.inr (by rw [mergeNodesT]; simp [hcb, hs])⟩
      · exact ⟨getDist (mergeNodesT cmp (.node ad al ar adx) br).1 + 1,
          Or.inl (by rw [mergeNodesT]; simp [hcb, hs])⟩

/-- Witness for C8: applied at equal keys 5 and 5 under `intLt` (the
comparator reports false, so the first operand wins the root). -/
theorem C8_comparator_once_first_wins_witness :
    intLt 5 5 = false ∧
      ∃ dx',
        (mergeNodesT intLt (.node 5 .leaf .leaf 0) (.node 5 .leaf .leaf 0)).1 =
            .node 5 .leaf (mergeNodesT intLt .leaf (.node 5 .leaf .leaf 0)).1 dx' ∨
          (mergeNodesT intLt (.node 5 .leaf .leaf 0) (.node 5 .leaf .leaf 0)).1 =
            .node 5 (mergeNodesT intLt .leaf (.node 5 .leaf .leaf 0)).1 .leaf dx' :=
  ⟨by decide,
    (C8_comparator_once_first_wins intLt 5 5 .leaf .leaf .leaf .leaf 0 0).2.1
      (by decide)⟩

/-- Error kinds surfaced by the container operations: the source's
`container_is_empty` signal and a propagated comparator exception. -/
inductive PQErr : Type
  | container_is_empty
  | cmpError
  deriving DecidableEq, Repr

/-- `mergeNodes` with a comparator that may throw (`.error ()` models a
thrown exception; the source's try/catch around the single comparator call
rethrows unchanged).  All mutations of a frame happen only after the
recursive call has returned, so a failure propagates with no committed
change to any input node. -/
def mergeNodesE (cmp : α → α → Except Unit Bool) :
    Tree α → Tree α → Except Unit (Tree α)
  | .leaf, b => .ok b
  | .node ad al ar adx, .leaf => .ok (.node ad al ar adx)
  | .node ad al ar adx, .node bd bl br bdx =>
    match cmp ad bd with
    | .error e => .error e
    | .ok c =>
      if !c then
        match mergeNodesE cmp ar (.node bd bl br bdx) with
        | .error e => .error e
        | .ok nr =>
          .ok (if getDist al < getDist nr then .node ad nr al (getDist al + 1)
               else .node ad al nr (getDist nr + 1))
      else
        match mergeNodesE cmp (.node ad al ar adx) br with
        | .error e => .error e
        | .ok nr =>
          .ok (if getDist bl < getDist nr then .node bd nr bl (getDist bl + 1)
               else .node bd bl nr (getDist nr + 1))
  termination_by a b => a.size + b.size
  decreasing_by all_goals simp [Tree.size]; omega

theorem leftistInv_mergeNodesE (cmp : α → α → Except Unit Bool)
    (a b : Tree α) :
    ∀ t, mergeNodesE cmp a b = .ok t → leftistInv a = true →
      leftistInv b = true → leftistInv t = true := by
  induction a, b using mergeNodesE.induct cmp with
  | case1 b =>
    intro t ht _ hb
    rw [mergeNodesE] at ht
    cases ht
    exact hb
  | case2 ad al ar adx =>
    intro t ht ha _
    rw [mergeNodesE] at ht
    cases ht
    exact ha
  | case3 ad al ar adx bd bl br bdx e hce =>
    intro t ht _ _
    rw [mergeNodesE, hce] at ht
    cases ht
  | case4 ad al ar adx bd bl br bdx c hok hc e herr ih =>
    intro t ht _ _
    rw [mergeNodesE, hok] at ht
    dsimp only at ht
    rw [if_pos hc, herr] at ht
    dsimp only at ht
    cases ht
  | case5 ad al ar adx bd bl br bdx c hok hc nr hnr ih =>
    intro t ht ha hb
    rw [mergeNodesE, hok] at ht
    dsimp only at ht
    rw [if_pos hc, hnr] at ht
    dsimp only at ht
    cases ht
    rw [leftistInv_node_iff] at ha
    obtain ⟨hal, har, _, _⟩ := ha
    have hnro := ih nr hnr har hb
    split
    next h => exact (leftistInv_node_iff _ _ _ _).mpr ⟨hnro, hal, le_of_lt h, rfl⟩
    next h =>
      exact (leftistInv_node_iff _ _ _ _).mpr ⟨hal, hnro, not_lt.mp h, rfl⟩
  | case6 ad al ar adx bd bl br bdx c hok hc e herr ih =>
    intro t ht _ _
    rw [mergeNodesE, hok] at ht
    dsimp only at ht
    rw [if_neg hc, herr] at ht
    dsimp only at ht
    cases ht
  | case7 ad al ar adx bd bl br bdx c hok hc nr hnr ih =>
    intro t ht ha hb
    rw [mergeNodesE, hok] at ht
    dsimp only at ht
    rw [if_neg hc, hnr] at ht
    dsimp only at ht
    cases ht
    rw [leftistInv_node_iff] at hb
    obtain ⟨hbl, hbr, _, _⟩ := hb
    have hnro := ih nr hnr ha hbr
    split
    next h => exact (leftistInv_node_iff _ _ _ _).mpr ⟨hnro, hbl, le_of_lt h, rfl⟩
    next h =>
      exact (leftistInv_node_iff _ _ _ _).mpr ⟨hbl, hnro, not_lt.mp h, rfl⟩

namespace PQ

/-- `push(e)` with a fallible comparator.  `new Node(e)` allocates the
singleton; on a successful merge the result is assigned to `root` and
`queue_size` is incremented.  The catch block runs `delete newNode; throw;`,
so the error case carries the container state after the handler — `root` and
`queue_size` exactly as before the call, since neither assignment executed
and an aborted `mergeNodes` commits nothing — together with the counts of
nodes this call allocated and released (one each). -/
def pushE (cmp : α → α → Except Unit Bool) (pq : PQ α) (e : α) :
    Except (PQ α × Nat × Nat) (PQ α) :=
  match mergeNodesE cmp pq.root (.node e .leaf .leaf 0) with
  | .ok t => .ok ⟨t, pq.queue_size + 1⟩
  | .error _ => .error (⟨pq.root, pq.queue_size⟩, 1, 1)

/-- `top()` with the container-empty raise made explicit: raises exactly when
`empty()`; otherwise returns `root->data`.  `none` models the null-root
dereference, unreachable under size consistency. -/
def topE (pq : PQ α) : Option (Except PQErr α) :=
  if pq.queue_size == 0 then some (.error .container_is_empty)
  else
    match pq.root with
    | .leaf => none
    | .node d _ _ _ => some (.ok d)

/-- `pop()` with a fallible comparator.  Raises container-empty exactly when
`empty()` (state untouched).  Otherwise the root's children are merged: on
success `root` is reassigned, `queue_size` decremented and the old root
freed; on a comparator failure the catch block restores `root` to the
snapshot `oldRoot` — whose children an aborted `mergeNodes` has not
mutated — and `--queue_size` never executed, so the error carries the
pre-call state.  `none` models the null-root dereference, unreachable under
size consistency. -/
def popE (cmp : α → α → Except Unit Bool) (pq : PQ α) :
    Option (Except (PQErr × PQ α) (PQ α)) :=
  if pq.queue_size == 0 then some (.error (.container_is_empty, pq))
  else
    match pq.root with
    | .leaf => none
    | .node d l r dx =>
      match mergeNodesE cmp l r with
      | .ok t => some (.ok ⟨t, pq.queue_size - 1⟩)
      | .error _ =>
        some (.error (.cmpError, ⟨.node d l r dx, pq.queue_size⟩))

end PQ

/-- `merge(other)` with a fallible comparator.  `same` models the aliasing
test `this == &other` (early return, both containers unchanged).  Otherwise
the four snapshot fields are saved; on success `self.root` becomes the
merged tree, `other.queue_size` is added to `self.queue_size`, and `other`
is cleared; on failure the catch block restores all four snapshot fields —
the error case carries the two restored container states. -/
def mergeE (cmp : α → α → Except Unit Bool) (same : Bool)
    (self other : PQ α) : Except (PQ α × PQ α) (PQ α × PQ α) :=
  if same then .ok (self, other)
  else
    match mergeNodesE cmp self.root other.root with
    | .ok t => .ok (⟨t, self.queue_size + other.queue_size⟩, ⟨.leaf, 0⟩)
    | .error _ =>
      .error (⟨self.root, self.queue_size⟩, ⟨other.root, other.queue_size⟩)

/-- `copyTree` with an infallible element copy: one fresh node per source
node, `data` and `dist` copied verbatim, children copied recursively. -/
def copyTree : Tree α → Tree α
  | .leaf => .leaf
  | .node d l r dx => .node d (copyTree l) (copyTree r) dx

theorem copyTree_eq (t : Tree α) : copyTree t = t := by
  induction t <;> simp_all [copyTree]

/-- `copyTree` with a fallible element copy (`new Node(other->data)` invokes
`T`'s copy constructor, which may throw), threading `(allocated, released)`
counters across the call.  An allocation is counted once
`new Node(other->data)` completes.  The source body contains no release on
any path — copyTree only allocates — so a failure inside a recursive call
propagates past the already-allocated nodes with the release count
unchanged. -/
def copyTreeE (copy : α → Except Unit α) :
    Tree α → Nat × Nat → Except (Nat × Nat) (Tree α × (Nat × Nat))
  | .leaf, c => .ok (.leaf, c)
  | .node d l r dx, c =>
    match copy d with
    | .error _ => .error c
    | .ok d' =>
      match copyTreeE copy l (c.1 + 1, c.2) with
      | .error c' => .error c'
      | .ok (l', c1) =>
        match copyTreeE copy r c1 with
        | .error c' => .error c'
        | .ok (r', c2) => .ok (.node d' l' r' dx, c2)

/-- Observable events of the assignment operator body, in execution order. -/
inductive AAct (α : Type) : Type
  | releaseTree (t : Tree α) : AAct α
  | copySucceeded : AAct α
  deriving DecidableEq, Repr

/-- Body of `operator=` for `this != &other`, as its event trace together
with its outcome.  The source runs, in order: `deleteTree(root)` (release of
the destination's prior tree), then `root = copyTree(other.root)`, then
`queue_size = other.queue_size`.  There is no try/catch: if the copy throws,
the exception propagates after the prior tree has already been released,
with `root` still holding the freed pointer and `queue_size` stale — the
`none` outcome records that no valid destination state exists. -/
def operatorAssignNS (copy : α → Except Unit α) (dst src : PQ α) :
    List (AAct α) × Option (PQ α) :=
  match copyTreeE copy src.root (0, 0) with
  | .ok (t, _) =>
    ([.releaseTree dst.root, .copySucceeded], some ⟨t, src.queue_size⟩)
  | .error _ => ([.releaseTree dst.root], none)

theorem popE_eq_ok {cmp : α → α → Except Unit Bool} {pq pq' : PQ α}
    (h : PQ.popE cmp pq = some (.ok pq')) :
    ∃ d l r dx t, pq.root = .node d l r dx ∧ pq.queue_size ≠ 0 ∧
      mergeNodesE cmp l r = .ok t ∧ pq' = ⟨t, pq.queue_size - 1⟩ := by
  unfold PQ.popE at h
  split at h
  · simp at h
  · split at h
    · cases h
    · next d l r dx heq =>
      split at h
      · next t hm =>
        cases h
        exact ⟨d, l, r, dx, t, heq, by simp_all, hm, rfl⟩
      · next e hm => simp at h

theorem mergeE_eq_ok {cmp : α → α → Except Unit Bool}
    {self other self' other' : PQ α}
    (h : mergeE cmp false self other = .ok (self', other')) :
    ∃ t, mergeNodesE cmp self.root other.root = .ok t ∧
      self' = ⟨t, self.queue_size + other.queue_size⟩ ∧
      other' = ⟨.leaf, 0⟩ := by
  unfold mergeE at h
  simp only [Bool.false_eq_true, if_false] at h
  split at h
  · next t hm =>
    simp only [Except.ok.injEq, Prod.mk.injEq] at h
    exact ⟨t, hm, h.1.symm, h.2.symm⟩
  · next e hm => cases h

theorem mergeE_eq_error {cmp : α → α → Except Unit Bool}
    {self other self' other' : PQ α}
    (h : mergeE cmp false self other = .error (self', other')) :
    self' = self ∧ other' = other := by
  unfold mergeE at h
  simp only [Bool.false_eq_true, if_false] at h
  split at h
  · next t hm => cases h
  · next e hm =>
    simp only [Except.error.injEq, Prod.mk.injEq] at h
    exact ⟨h.1.symm, h.2.symm⟩

/-- Is the subtree the null pointer? -/
def isLeafB : Tree α → Bool
  | .leaf => true
  | .node _ _ _ _ => false

/-- Pointwise over a subtree: a node's `dist` is 0 exactly when its right
child is empty. -/
def distZeroIffNoRight : Tree α → Bool
  | .leaf => true
  | .node _ l r d =>
    (decide (d = 0) == isLeafB r) && distZeroIffNoRight l &&
      distZeroIffNoRight r

theorem distZeroIffNoRight_of_leftistInv {t : Tree α}
    (h : leftistInv t = true) : distZeroIffNoRight t = true := by
  induction t with
  | leaf => rfl
  | node d l r dx ihl ihr =>
    rw [leftistInv_node_iff] at h
    obtain ⟨hl, hr, hle, hd⟩ := h
    have hiff := getDist_eq_neg_one_iff hr
    have hge := getDist_ge_neg_one hr
    simp only [distZeroIffNoRight, Bool.and_eq_true]
    refine ⟨⟨?_, ihl hl⟩, ihr hr⟩
    cases r with
    | leaf =>
      simp only [getDist] at hd
      have hdx : dx = 0 := by omega
      simp [isLeafB, hdx]
    | node rd rl rr rdx =>
      have hne : getDist (Tree.node rd rl rr rdx) ≠ -1 := by
        intro hx
        exact Tree.noConfusion (hiff.mp hx)
      have hdx : dx ≠ 0 := by omega
      simp [isLeafB, hdx]

/-- C7: the leftist property and distance consistency hold for the empty and
hold after every successful public operation (push, pop, merge, copy), and
under the invariant a node's `dist` is 0 exactly when it has no right
child. -/
theorem C7_invariants_preserved (cmpE : α → α → Except Unit Bool)
    (pq pq' self' other' other : PQ α) (e : α) (t : Tree α) :
    leftistInv ((⟨Tree.leaf, 0⟩ : PQ α).root) = true ∧
      (leftistInv pq.root = true → PQ.pushE cmpE pq e = .ok pq' →
        leftistInv pq'.root = true) ∧
      (leftistInv pq.root = true → PQ.popE cmpE pq = some (.ok pq') →
        leftistInv pq'.root = true) ∧
      (leftistInv pq.root = true → leftistInv other.root = true →
        mergeE cmpE false pq other = .ok (self', other') →
        leftistInv self'.root = true ∧ leftistInv other'.root = true) ∧
      leftistInv (copyTree t) = leftistInv t ∧
      (leftistInv t = true → distZeroIffNoRight t = true) := by
  refine ⟨rfl, ?_, ?_, ?_, by rw [copyTree_eq],
    distZeroIffNoRight_of_leftistInv⟩
  · intro hpq h
    unfold PQ.pushE at h
    split at h
    · next t' hm =>
      cases h
      exact leftistInv_mergeNodesE cmpE _ _ t' hm hpq
        (by simp [leftistInv, getDist])
    · cases h
  · intro hpq h
    obtain ⟨d, l, r, dx, t', heq, _, hm, hpq'⟩ := popE_eq_ok h
    rw [heq, leftistInv_node_iff] at hpq
    rw [hpq']
    exact leftistInv_mergeNodesE cmpE _ _ t' hm hpq.1 hpq.2.1
  · intro hpq hother h
    obtain ⟨t', hm, hs, ho⟩ := mergeE_eq_ok h
    subst hs; subst ho
    exact ⟨leftistInv_mergeNodesE cmpE _ _ t' hm hpq hother, rfl⟩

/-- Witness for C7: the base clause, and the push clause applied to pushing
3 onto the empty container with an always-failing comparator (which push on
an empty container never consults). -/
theorem C7_invariants_preserved_witness :
    leftistInv ((⟨Tree.leaf, 0⟩ : PQ ℤ).root) = true ∧
      leftistInv ((⟨Tree.node 3 .leaf .leaf 0, 1⟩ : PQ ℤ)).root = true := by
  constructor
  · exact (C7_invariants_preserved (fun _ _ : ℤ => Except.error ())
      ⟨Tree.leaf, 0⟩ ⟨Tree.node 3 .leaf .leaf 0, 1⟩ ⟨Tree.leaf, 0⟩
      ⟨Tree.leaf, 0⟩ ⟨Tree.leaf, 0⟩ 3 Tree.leaf).1
  · exact (C7_invariants_preserved (fun _ _ : ℤ => Except.error ())
      ⟨Tree.leaf, 0⟩ ⟨Tree.node 3 .leaf .leaf 0, 1⟩ ⟨Tree.leaf, 0⟩
      ⟨Tree.leaf, 0⟩ ⟨Tree.leaf, 0⟩ 3 Tree.leaf).2.1 rfl
      (by unfold PQ.pushE; simp [mergeNodesE])

/-- C4: if `push(e)` fails because the comparator throws during the merge,
the freshly allocated singleton node is released (this call allocates one
node and releases one node) and the container's `root` and `queue_size` are
exactly as before the call. -/
theorem C4_push_failure_restores (cmp : α → α → Except Unit Bool) (pq : PQ α)
    (e : α) (st : PQ α) (alloc rel : Nat)
    (h : PQ.pushE cmp pq e = .error (st, alloc, rel)) :
    st = pq ∧ alloc = 1 ∧ rel = 1 := by
  unfold PQ.pushE at h
  split at h
  · cases h
  · simp only [Except.error.injEq, Prod.mk.injEq] at h
    exact ⟨h.1.symm, h.2.1.symm, h.2.2.symm⟩

/-- Witness for C4: pushing 2 into the container {1} with an always-failing
comparator. -/
theorem C4_push_failure_restores_witness :
    (⟨Tree.node 1 .leaf .leaf 0, 1⟩ : PQ ℤ) =
        ⟨Tree.node 1 .leaf .leaf 0, 1⟩ ∧
      (1 : Nat) = 1 ∧ (1 : Nat) = 1 :=
  C4_push_failure_restores (fun _ _ => .error ())
    ⟨Tree.node 1 .leaf .leaf 0, 1⟩ 2 ⟨Tree.node 1 .leaf .leaf 0, 1⟩ 1 1
    (by unfold PQ.pushE; simp [mergeNodesE])

/-- C5: `top` and `pop` raise container-empty exactly when
`queue_size == 0`, and then the carried container state is the untouched
pre-call state; when `pop` fails because the comparator throws during the
internal merge, the state after the handler (root restored to the snapshot)
is exactly the pre-call state, including an undecremented size. -/
theorem C5_container_empty_and_pop_restore (cmp : α → α → Except Unit Bool)
    (pq : PQ α) :
    ((PQ.topE pq = some (.error .container_is_empty)) ↔ pq.queue_size = 0) ∧
      ((∃ st, PQ.popE cmp pq = some (.error (.container_is_empty, st))) ↔
        pq.queue_size = 0) ∧
      (∀ st, PQ.popE cmp pq = some (.error (.container_is_empty, st)) →
        st = pq) ∧
      (∀ st, PQ.popE cmp pq = some (.error (.cmpError, st)) → st = pq) := by
  obtain ⟨root, n⟩ := pq
  by_cases hn : n = 0
  · subst hn
    simp [PQ.topE, PQ.popE]
  · cases root with
    | leaf => simp [PQ.topE, PQ.popE, hn]
    | node d l r dx =>
      cases hm : mergeNodesE cmp l r with
      | ok t => simp [PQ.topE, PQ.popE, hn, hm]
      | error e => simp [PQ.topE, PQ.popE, hn, hm]

/-- Witness for C5: the pop-restore clause applied to the container {3} with
an always-failing comparator — pop on a single node never consults the
comparator, so instead use a two-element container where the comparator does
throw, and the empty clauses on the empty container. -/
theorem C5_container_empty_and_pop_restore_witness :
    ((PQ.topE (⟨Tree.leaf, 0⟩ : PQ ℤ) =
        some (.error .container_is_empty)) ∧
      ((⟨Tree.node 5 (.node 2 .leaf .leaf 0) (.node 3 .leaf .leaf 0) 1, 3⟩ :
          PQ ℤ) =
        ⟨Tree.node 5 (.node 2 .leaf .leaf 0) (.node 3 .leaf .leaf 0) 1, 3⟩)) := by
  constructor
  · exact (C5_container_empty_and_pop_restore (fun _ _ : ℤ => .error ())
      ⟨Tree.leaf, 0⟩).1.mpr rfl
  · exact (C5_container_empty_and_pop_restore (fun _ _ : ℤ => .error ())
      ⟨Tree.node 5 (.node 2 .leaf .leaf 0) (.node 3 .leaf .leaf 0) 1, 3⟩).2.2.2
      _ (by unfold PQ.popE; simp [mergeNodesE])

/-- C6: on two distinct containers, `merge` on success sets the receiver's
root to the merged tree, adds the donor's size, and clears the donor; on
comparator failure it restores all four snapshot fields (both roots, both
sizes) and propagates. -/
theorem C6_merge_absorbs_or_restores (cmp : α → α → Except Unit Bool)
    (self other self' other' : PQ α) :
    (mergeE cmp false self other = .ok (self', other') →
      mergeNodesE cmp self.root other.root = .ok self'.root ∧
        self'.queue_size = self.queue_size + other.queue_size ∧
        other'.root = .leaf ∧ other'.queue_size = 0) ∧
      (mergeE cmp false self other = .error (self', other') →
        self' = self ∧ other' = other) := by
  constructor
  · intro h
    obtain ⟨t, hm, hs, ho⟩ := mergeE_eq_ok h
    subst hs
    subst ho
    exact ⟨hm, rfl, rfl, rfl⟩
  · exact mergeE_eq_error

/-- Witness for C6: merging {2} into {1} under the integer comparator (the
success clause), and under an always-failing comparator (the restore
clause). -/
theorem C6_merge_absorbs_or_restores_witness :
    (mergeNodesE (fun a b : ℤ => .ok (intLt a b)) (.node 1 .leaf .leaf 0)
          (.node 2 .leaf .leaf 0) =
        .ok ((⟨Tree.node 2 (.node 1 .leaf .leaf 0) .leaf 0, 2⟩ : PQ ℤ)).root ∧
      (⟨Tree.node 2 (.node 1 .leaf .leaf 0) .leaf 0, 2⟩ : PQ ℤ).queue_size =
        1 + 1 ∧
      (⟨Tree.leaf, 0⟩ : PQ ℤ).root = .leaf ∧
      (⟨Tree.leaf, 0⟩ : PQ ℤ).queue_size = 0) ∧
      ((⟨Tree.node 1 .leaf .leaf 0, 1⟩ : PQ ℤ) =
          ⟨Tree.node 1 .leaf .leaf 0, 1⟩ ∧
        (⟨Tree.node 2 .leaf .leaf 0, 1⟩ : PQ ℤ) =
          ⟨Tree.node 2 .leaf .leaf 0, 1⟩) := by
  constructor
  · exact (C6_merge_absorbs_or_restores (fun a b : ℤ => .ok (intLt a b))
      ⟨Tree.node 1 .leaf .leaf 0, 1⟩ ⟨Tree.node 2 .leaf .leaf 0, 1⟩
      ⟨Tree.node 2 (.node 1 .leaf .leaf 0) .leaf 0, 2⟩ ⟨Tree.leaf, 0⟩).1
      (by unfold mergeE; simp [mergeNodesE, intLt, getDist])
  · exact (C6_merge_absorbs_or_restores (fun _ _ : ℤ => .error ())
      ⟨Tree.node 1 .leaf .leaf 0, 1⟩ ⟨Tree.node 2 .leaf .leaf 0, 1⟩
      ⟨Tree.node 1 .leaf .leaf 0, 1⟩ ⟨Tree.node 2 .leaf .leaf 0, 1⟩).2
      (by unfold mergeE; simp [mergeNodesE])

/-- C9: merging a container with itself (the aliasing test `this == &other`
fires) is a no-op for any comparator; concretely, the container built by
pushing 1, 2, 3 has size 3 and top-sequence 3, 2, 1. -/
theorem C9_merge_self_noop (cmp : α → α → Except Unit Bool) (X : PQ α) :
    mergeE cmp true X X = .ok (X, X) ∧
      (([1, 2, 3] : List ℤ).foldl (PQ.push intLt) ⟨.leaf, 0⟩).queue_size =
        3 ∧
      PQ.topPopSeq intLt 3
          (([1, 2, 3] : List ℤ).foldl (PQ.push intLt) ⟨.leaf, 0⟩) =
        ([3, 2, 1], ⟨.leaf, 0⟩) := by
  refine ⟨by unfold mergeE; rfl, ?_, ?_⟩ <;>
    simp [PQ.topPopSeq, PQ.top?, PQ.pop?, PQ.push, mergeNodes, intLt,
      getDist, List.foldl]

/-- C10: `mergeNodes` with an empty operand returns the other operand
without consulting the comparator (empty invocation trace, and success even
under a comparator that always throws); hence `push` on an empty container
and `pop` on a single-element container never invoke the comparator and
cannot fail with a comparator error. -/
theorem C10_empty_operand_skips_comparator (cmp : α → α → Bool)
    (cmpE : α → α → Except Unit Bool) (a b : Tree α) (e d : α) (dx : Int)
    (n s : Nat) (hs : s ≠ 0) :
    mergeNodesT cmp .leaf b = (b, []) ∧
      mergeNodesT cmp a .leaf = (a, []) ∧
      mergeNodesE cmpE .leaf b = .ok b ∧
      mergeNodesE cmpE a .leaf = .ok a ∧
      PQ.pushE cmpE ⟨.leaf, n⟩ e = .ok ⟨.node e .leaf .leaf 0, n + 1⟩ ∧
      PQ.popE cmpE ⟨.node d .leaf .leaf dx, s⟩ =
        some (.ok ⟨.leaf, s - 1⟩) := by
  refine ⟨by rw [mergeNodesT], ?_, by rw [mergeNodesE], ?_, ?_, ?_⟩
  · cases a <;> simp [mergeNodesT]
  · cases a <;> simp [mergeNodesE]
  · unfold PQ.pushE
    simp [mergeNodesE]
  · unfold PQ.popE
    simp [mergeNodesE, hs]

/-- Witness for C10: an always-failing comparator, the subtrees {1} and
{2}, pushing 5 onto an empty container of recorded size 0, popping the
single-element container {7} of size 1. -/
theorem C10_empty_operand_skips_comparator_witness :
    mergeNodesT intLt .leaf (.node 2 .leaf .leaf 0) =
        ((.node 2 .leaf .leaf 0 : Tree ℤ), []) ∧
      mergeNodesT intLt (.node 1 .leaf .leaf 0) .leaf =
        ((.node 1 .leaf .leaf 0 : Tree ℤ), []) ∧
      mergeNodesE (fun _ _ : ℤ => .error ()) .leaf (.node 2 .leaf .leaf 0) =
        .ok (.node 2 .leaf .leaf 0) ∧
      mergeNodesE (fun _ _ : ℤ => .error ()) (.node 1 .leaf .leaf 0) .leaf =
        .ok (.node 1 .leaf .leaf 0) ∧
      PQ.pushE (fun _ _ : ℤ => .error ()) ⟨.leaf, 0⟩ 5 =
        .ok ⟨.node 5 .leaf .leaf 0, 0 + 1⟩ ∧
      PQ.popE (fun _ _ : ℤ => .error ()) ⟨.node 7 .leaf .leaf 0, 1⟩ =
        some (.ok ⟨.leaf, 1 - 1⟩) :=
  C10_empty_operand_skips_comparator intLt (fun _ _ : ℤ => .error ())
    (.node 1 .leaf .leaf 0) (.node 2 .leaf .leaf 0) 5 7 0 0 1 (by decide)

/-- C2 evaluated at a failing input (code bug): assigning from a one-element
source into the destination {7} with an element copy that always throws.
The body releases the destination's prior non-empty tree first, the copy
then fails, no `copySucceeded` event ever occurs, and no valid destination
state results — so the prior tree is not released only after the source
has been successfully copied, and the destination is neither unchanged nor
validly empty. -/
theorem C2_assignment_releases_before_copy :
    operatorAssignNS (fun _ : ℤ => .error ())
        ⟨.node 7 .leaf .leaf 0, 1⟩ ⟨.node 1 .leaf .leaf 0, 1⟩ =
      ([.releaseTree (.node 7 .leaf .leaf 0)], none) ∧
      AAct.copySucceeded ∉
        (operatorAssignNS (fun _ : ℤ => .error ())
            ⟨.node 7 .leaf .leaf 0, 1⟩ ⟨.node 1 .leaf .leaf 0, 1⟩).1 := by
  constructor
  · rfl
  · decide

/-- C3 evaluated at a failing input (code bug): copying the two-node source
tree (root 0, left child 1) with an element copy that throws on value 1.
The copy of the root is allocated, the recursive copy of the left child
throws, and the failure surfaces with one node allocated and zero released:
the allocated node leaks, contradicting the claim that every allocated node
is released before the failure is surfaced. -/
theorem C3_copyTree_leaks_on_failure :
    copyTreeE (fun v : ℤ => if v = 1 then .error () else .ok v)
        (.node 0 (.node 1 .leaf .leaf 0) .leaf 1) (0, 0) =
      .error (1, 0) ∧ (1 : Nat) ≠ 0 := by
  constructor
  · rfl
  · decide

end LeftistPQ
